import Mathlib

/-!
Verification of the user-list reconciliation logic of the MQ broker resource
handler (aws/resource_aws_mq_broker.go), as a shallow embedding in Lean.

The per-user configuration objects in the source are untyped maps
(map[string]interface{}) with the four schema keys console_access, groups,
password and username.  The groups value is dynamically typed: the schema
layer delivers it as a *schema.Set, and diffAwsMqBrokerUsers rewrites it to
the []interface{} produced by Set.List().  We model a *schema.Set of strings
as a Finset String (the set is keyed by a hash of the element, so insertion
order and duplicates are invisible) and Set.List() as enumerating the set in
a fixed canonical order (sorted); the only facts used are that equal sets
list equally and that building the set forgets order.
-/

/-- The dynamic type of the groups value held in a user map: either a
*schema.Set of group names or the []interface{} produced by Set.List(). -/
inductive GVal where
  | set (s : Finset String)
  | list (l : List String)
deriving DecidableEq

/-- Models g.(*schema.Set).List(): the canonical enumeration of a set of
strings.  The source performs this type assertion only on set-typed values;
on an already-listed value we return it unchanged. -/
def setListG : GVal → List String
  | .set s => s.sort (· ≤ ·)
  | .list l => l

/-- One user map (map[string]interface{}) with the four schema keys.  The
groups key may be absent (the source guards each access with an ok-check). -/
structure UserMap where
  console_access : Bool
  groups : Option GVal
  password : String
  username : String
deriving DecidableEq

/-- The loop body of the diff applied to every user map it visits: when a
groups key is present its set value is replaced by the Set.List() value
(the assignment to the groups key in the source).  This is also the content of
the mutable copy of a declared map after the same conversion. -/
def listifyU (u : UserMap) : UserMap :=
  match u.groups with
  | some g => { u with groups := some (GVal.list (setListG g)) }
  | none => u

/-- mq.CreateUserRequest as filled by diffAwsMqBrokerUsers (Groups only when
the listed groups are non-empty). -/
structure CreateUserRequest where
  brokerId : String
  consoleAccess : Bool
  groups : Option (List String)
  password : String
  username : String
deriving DecidableEq

/-- mq.DeleteUserInput as filled by diffAwsMqBrokerUsers. -/
structure DeleteUserInput where
  brokerId : String
  username : String
deriving DecidableEq

/-- mq.UpdateUserRequest as filled by diffAwsMqBrokerUsers. -/
structure UpdateUserRequest where
  brokerId : String
  consoleAccess : Bool
  groups : List String
  password : String
  username : String
deriving DecidableEq

/-- The Go map existingUsers : map[string]interface{} is modelled as an
association list from username to user map; a Go map has unique keys, which
insertion (overwrite) and deletion below preserve. -/
abbrev ExistingUsers := List (String × UserMap)

/-- Lookup of a key in the association list (eu, ok := existingUsers[k]). -/
def lookupU (k : String) : ExistingUsers → Option UserMap
  | [] => none
  | p :: rest => if p.1 = k then some p.2 else lookupU k rest

/-- Map assignment existingUsers[k] = v: overwrite the entry if the key is
present, otherwise add one. -/
def insertU (k : String) (v : UserMap) : ExistingUsers → ExistingUsers
  | [] => [(k, v)]
  | p :: rest => if p.1 = k then (k, v) :: rest else p :: insertU k v rest

/-- delete(existingUsers, k). -/
def eraseU (k : String) (l : ExistingUsers) : ExistingUsers :=
  l.filter (fun p => p.1 ≠ k)

/-- The first loop of diffAwsMqBrokerUsers: builds the existingUsers map
keyed by username, converting each observed map's groups set to a list
in place.  The second component records the post-loop contents of the
observed maps (the loop writes through the map references it was handed,
so the caller's observed collection ends up listified). -/
def mkExistingAux (acc : ExistingUsers × List UserMap) :
    List UserMap → ExistingUsers × List UserMap
  | [] => acc
  | u :: rest =>
    let u2 := listifyU u
    mkExistingAux (insertU u2.username u2 acc.1, acc.2 ++ [u2]) rest

/-- The CreateUserRequest built for a declared user absent from the observed
collection; ng is the listed groups of the declared map. -/
def mkCreate (bId : String) (nu : UserMap) (ng : List String) : CreateUserRequest :=
  { brokerId := bId
    consoleAccess := nu.console_access
    groups := if 0 < ng.length then some ng else none
    password := nu.password
    username := nu.username }

/-- The UpdateUserRequest built for a declared user present in the observed
collection with a differing map. -/
def mkUpdate (bId : String) (nu : UserMap) (ng : List String) : UpdateUserRequest :=
  { brokerId := bId
    consoleAccess := nu.console_access
    groups := ng
    password := nu.password
    username := nu.username }

/-- The second loop of diffAwsMqBrokerUsers: walks the declared users in
order; a username found in existingUsers is compared (reflect.DeepEqual on
the listified maps) and removed from existingUsers, producing an update
request when the maps differ; an absent username produces a create request.
Returns the create list, the update list, and what is left of
existingUsers. -/
def processNew (bId : String) (exist : ExistingUsers) :
    List UserMap → List CreateUserRequest × List UpdateUserRequest × ExistingUsers
  | [] => ([], [], exist)
  | nu :: rest =>
    let ng : List String := match nu.groups with
      | some g => setListG g
      | none => []
    let newUserMap := listifyU nu
    match lookupU nu.username exist with
    | some eu =>
      let res := processNew bId (eraseU nu.username exist) rest
      if eu = newUserMap then res
      else (res.1, mkUpdate bId newUserMap ng :: res.2.1, res.2.2)
    | none =>
      let res := processNew bId exist rest
      (mkCreate bId newUserMap ng :: res.1, res.2.1, res.2.2)

/-- diffAwsMqBrokerUsers (lines 604-680).  Returns the create, delete and
update request lists, together with the post-call contents of the observed
user maps (the Go code mutates them in place while building existingUsers;
the declared maps are only ever mutated through a deep copy and stay
intact).  The delete requests are enumerated here in the insertion order of
existingUsers, a deterministic refinement of Go's unspecified map-range
order.  The source's error result comes only from copystructure.Copy and is
always nil on these value types, so it is dropped. -/
def diffAwsMqBrokerUsers (bId : String) (oldUsers newUsers : List UserMap) :
    (List CreateUserRequest × List DeleteUserInput × List UpdateUserRequest) × List UserMap :=
  let built := mkExistingAux ([], []) oldUsers
  let res := processNew bId built.1 newUsers
  let di := res.2.2.map (fun p => DeleteUserInput.mk bId p.1)
  ((res.1, di, res.2.1), built.2)

/-- The create list of the diff. -/
def diffCreates (bId : String) (oldUsers newUsers : List UserMap) : List CreateUserRequest :=
  (diffAwsMqBrokerUsers bId oldUsers newUsers).1.1

/-- The delete list of the diff. -/
def diffDeletes (bId : String) (oldUsers newUsers : List UserMap) : List DeleteUserInput :=
  (diffAwsMqBrokerUsers bId oldUsers newUsers).1.2.1

/-- The update list of the diff. -/
def diffUpdates (bId : String) (oldUsers newUsers : List UserMap) : List UpdateUserRequest :=
  (diffAwsMqBrokerUsers bId oldUsers newUsers).1.2.2

/-- A typed AWS service error: code and message of an awserr.Error. -/
structure AwsErr where
  code : String
  message : String
deriving DecidableEq

/-- One remote per-user call issued by updateAwsMqBrokerUsers. -/
inductive MqReq where
  | createUser (r : CreateUserRequest)
  | deleteUser (r : DeleteUserInput)
  | updateUser (r : UpdateUserRequest)
deriving DecidableEq

/-- The remote client for per-user calls: each call either succeeds (none)
or fails with a typed error. -/
abbrev MqUserClient := MqReq → Option AwsErr

/-- One of the three loops of updateAwsMqBrokerUsers over a request list,
threading the updatedUsers flag: each iteration issues the call, sets the
flag to true BEFORE inspecting the call's error, and returns on the first
error.  Result: final flag, error, and the calls actually issued. -/
def applyUserReqs (client : MqUserClient) (mutated : Bool) :
    List MqReq → Bool × Option AwsErr × List MqReq
  | [] => (mutated, none, [])
  | r :: rest =>
    match client r with
    | some e => (true, some e, [r])
    | none =>
      let res := applyUserReqs client true rest
      (res.1, res.2.1, r :: res.2.2)

/-- updateAwsMqBrokerUsers (lines 570-602): computes the diff and then runs
the create loop, the delete loop and the update loop in that order, each
returning early on the first call error.  Result: the updatedUsers flag,
the returned error, and the full sequence of issued remote calls. -/
def updateAwsMqBrokerUsers (client : MqUserClient) (bId : String)
    (oldUsers newUsers : List UserMap) : Bool × Option AwsErr × List MqReq :=
  let d := (diffAwsMqBrokerUsers bId oldUsers newUsers).1
  let r1 := applyUserReqs client false (d.1.map MqReq.createUser)
  match r1.2.1 with
  | some e => (r1.1, some e, r1.2.2)
  | none =>
    let r2 := applyUserReqs client r1.1 (d.2.1.map MqReq.deleteUser)
    match r2.2.1 with
    | some e => (r2.1, some e, r1.2.2 ++ r2.2.2)
    | none =>
      let r3 := applyUserReqs client r2.1 (d.2.2.map MqReq.updateUser)
      (r3.1, r3.2.1, r1.2.2 ++ r2.2.2 ++ r3.2.2)

/-- The single ordered sequence of remote calls the diff asks for: all
creates, then all deletes, then all updates. -/
def allMqReqs (bId : String) (oldUsers newUsers : List UserMap) : List MqReq :=
  let d := (diffAwsMqBrokerUsers bId oldUsers newUsers).1
  d.1.map MqReq.createUser ++ d.2.1.map MqReq.deleteUser ++ d.2.2.map MqReq.updateUser

/-- Spec-side description of the apply phase, following the specification's
words: issue the given remote calls one at a time in the given order; the
first failing call aborts everything that remains and its error is returned
unchanged; the result also records exactly the calls issued. -/
def applyCallsSpec (client : MqUserClient) :
    List MqReq → Option AwsErr × List MqReq
  | [] => (none, [])
  | r :: rest =>
    match client r with
    | some e => (some e, [r])
    | none =>
      let res := applyCallsSpec client rest
      (res.1, r :: res.2)

/-- mq.User as rebuilt from DescribeUser output during read (lines 405-409):
only ConsoleAccess, Groups and Username are carried; the remote read returns
no password. -/
structure RemoteUser where
  consoleAccess : Option Bool
  groups : List String
  username : String
deriving DecidableEq

/-- One element of the set produced by flattenMqUsers: a user map in which
the password, console_access and groups keys are present only when the
source sets them. -/
structure FlatUser where
  username : String
  password : Option String
  console_access : Option Bool
  groups : Option (Finset String)
deriving DecidableEq

/-- The Go map existingPairs : map[string]string from username to the
password of the prior declared config; built with overwrite on duplicate
keys. -/
def insertPair (k v : String) : List (String × String) → List (String × String)
  | [] => [(k, v)]
  | p :: rest => if p.1 = k then (k, v) :: rest else p :: insertPair k v rest

/-- Lookup in existingPairs. -/
def lookupPair (k : String) : List (String × String) → Option String
  | [] => none
  | p :: rest => if p.1 = k then some p.2 else lookupPair k rest

/-- The first loop of flattenMqUsers: existingPairs[username] = password
over the prior declared config entries. -/
def mkPairs (cfgUsers : List UserMap) : List (String × String) :=
  cfgUsers.foldl (fun acc u => insertPair u.username u.password acc) []

/-- flattenMqUsers (lines 758-787): rebuilds the observed user maps from the
remote users, carrying each password forward from the prior declared config
when that config holds a non-empty one.  flattenStringSet on the groups is
the *schema.Set built from the remote group list, modelled as its Finset of
elements.  The Go function wraps the result in schema.NewSet, an unordered
collection; the per-element maps are returned here as a list in remote
order. -/
def flattenMqUsers (users : List RemoteUser) (cfgUsers : List UserMap) : List FlatUser :=
  let pairs := mkPairs cfgUsers
  users.map (fun u =>
    let password := match lookupPair u.username pairs with
      | some p => p
      | none => ""
    { username := u.username
      password := if password = "" then none else some password
      console_access := u.consoleAccess
      groups := if 0 < u.groups.length then some u.groups.toFinset else none })

/-- subAux pat hay is true when pat occurs contiguously in hay. -/
def subAux (pat : List Char) : List Char → Bool
  | [] => pat.isEmpty
  | c :: rest => pat.isPrefixOf (c :: rest) || subAux pat rest

/-- Substring test on the underlying character lists, modelling the Go
strings.Contains used by the AWS error matcher. -/
def strContainsSub (s pat : String) : Bool :=
  subAux pat.data s.data

/-- Modelled from the spec: the helper isAWSErr of this repository is not
under src/; per the spec's error taxonomy it recognises a typed AWS error by
its exact code and by a substring of its message. -/
def isAWSErr (e : AwsErr) (code message : String) : Bool :=
  e.code = code && strContainsSub e.message message

/-- mq.ErrCodeNotFoundException. -/
def ErrCodeNotFoundException : String := "NotFoundException"

/-- mq.ErrCodeForbiddenException. -/
def ErrCodeForbiddenException : String := "ForbiddenException"

/-- Outcome of a read cycle as far as the DescribeBroker error dispatch is
concerned: the handler either clears the resource id from state and returns
nil, or propagates the error, or proceeds to flatten the attributes. -/
inductive MqReadOutcome where
  | removed
  | failed (e : AwsErr)
  | proceed
deriving DecidableEq

/-- resourceAwsMqBrokerRead restricted to its DescribeBroker dispatch
(lines 350-366): a NotFoundException, or a ForbiddenException whose message
contains Forbidden, clears the id and returns nil; any other error is
returned; on success the read proceeds to attribute flattening (abstracted
as proceed). -/
def resourceAwsMqBrokerRead (describe : Except AwsErr Unit) : MqReadOutcome :=
  match describe with
  | .ok _ => .proceed
  | .error err =>
    if isAWSErr err ErrCodeNotFoundException "" then .removed
    else if isAWSErr err ErrCodeForbiddenException "Forbidden" then .removed
    else .failed err

/-- mq.EngineTypeRabbitmq. -/
def EngineTypeRabbitmq : String := "RABBITMQ"

/-- ASCII lowering of a string, modelling the character folding performed by
strings.EqualFold (every string compared here is ASCII). -/
def strLower (s : String) : String :=
  String.mk (s.data.map Char.toLower)

/-- strings.EqualFold. -/
def goEqualFold (a b : String) : Bool :=
  strLower a = strLower b

/-- The DiffSuppressFunc of the user attribute (lines 222-231): suppress
every user diff once the broker is a RabbitMQ broker that already exists
remotely (non-empty arn). -/
def mqUserDiffSuppress (engineType arn : String) : Bool :=
  if goEqualFold engineType EngineTypeRabbitmq && arn ≠ "" then true
  else false

/-- The change flags of one update cycle, as reported by d.HasChange /
d.HasChanges, plus apply_immediately. -/
structure UpdatePlan where
  hasChangeSecurityGroups : Bool
  hasChangeConfigurationLogs : Bool
  hasChangeUser : Bool
  hasChangeTags : Bool
  applyImmediately : Bool
deriving DecidableEq

/-- The remote client as seen by resourceAwsMqBrokerUpdate: the outcome of
each broker-level call it may issue, plus the per-user call client. -/
structure MqUpdateClient where
  updateBrokerSecurityGroups : Option AwsErr
  updateBrokerConfigurationLogs : Option AwsErr
  userCalls : MqUserClient
  rebootBroker : Option AwsErr
  waitForRunning : Option AwsErr
  updateTags : Option AwsErr

/-- The remote actions an update cycle can issue, in issue order. -/
inductive BrokerAction where
  | updateBrokerSecurityGroups
  | updateBrokerConfigurationLogs
  | userCall (r : MqReq)
  | rebootBroker
  | waitForRunning
  | updateTags
deriving DecidableEq

/-- Tags step of resourceAwsMqBrokerUpdate (lines 498-504); the Go code
wraps the error with a context message via a format verb that preserves it,
which we carry as the error itself. -/
def mqUpdateTagsStep (p : UpdatePlan) (c : MqUpdateClient) (trace : List BrokerAction) :
    List BrokerAction × Option AwsErr :=
  if p.hasChangeTags then (trace ++ [.updateTags], c.updateTags)
  else (trace, none)

/-- Reboot step (lines 466-496): when apply_immediately and requiresReboot
both hold, issue RebootBroker and then poll until Running; either failure
returns; otherwise fall through to the tags step. -/
def mqRebootStep (p : UpdatePlan) (c : MqUpdateClient) (requiresReboot : Bool)
    (trace : List BrokerAction) : List BrokerAction × Option AwsErr :=
  if p.applyImmediately && requiresReboot then
    match c.rebootBroker with
    | some e => (trace ++ [.rebootBroker], some e)
    | none =>
      match c.waitForRunning with
      | some e => (trace ++ [.rebootBroker, .waitForRunning], some e)
      | none => mqUpdateTagsStep p c (trace ++ [.rebootBroker, .waitForRunning])
  else mqUpdateTagsStep p c trace

/-- User step (lines 449-464): when the user attribute reports a change,
run updateAwsMqBrokerUsers; an error returns immediately; otherwise a true
mutation flag marks requiresReboot. -/
def mqUserStep (p : UpdatePlan) (bId : String) (oldUsers newUsers : List UserMap)
    (c : MqUpdateClient) (requiresReboot : Bool) (trace : List BrokerAction) :
    List BrokerAction × Option AwsErr :=
  if p.hasChangeUser then
    let res := updateAwsMqBrokerUsers c.userCalls bId oldUsers newUsers
    let trace2 := trace ++ res.2.2.map BrokerAction.userCall
    match res.2.1 with
    | some e => (trace2, some e)
    | none => mqRebootStep p c (requiresReboot || res.1) trace2
  else mqRebootStep p c requiresReboot trace

/-- Configuration/logs step (lines 437-447): a successful UpdateBroker call
for a changed configuration or logs attribute sets requiresReboot. -/
def mqConfigStep (p : UpdatePlan) (bId : String) (oldUsers newUsers : List UserMap)
    (c : MqUpdateClient) (trace : List BrokerAction) : List BrokerAction × Option AwsErr :=
  if p.hasChangeConfigurationLogs then
    let trace2 := trace ++ [.updateBrokerConfigurationLogs]
    match c.updateBrokerConfigurationLogs with
    | some e => (trace2, some e)
    | none => mqUserStep p bId oldUsers newUsers c true trace2
  else mqUserStep p bId oldUsers newUsers c false trace

/-- resourceAwsMqBrokerUpdate (lines 422-507) as the sequence of its remote
steps: security groups, configuration/logs, users, optional reboot plus
poll, tags.  Result: the issued broker-level actions in order, and the
returned error. -/
def resourceAwsMqBrokerUpdate (p : UpdatePlan) (bId : String)
    (oldUsers newUsers : List UserMap) (c : MqUpdateClient) :
    List BrokerAction × Option AwsErr :=
  if p.hasChangeSecurityGroups then
    match c.updateBrokerSecurityGroups with
    | some e => ([.updateBrokerSecurityGroups], some e)
    | none => mqConfigStep p bId oldUsers newUsers c [.updateBrokerSecurityGroups]
  else mqConfigStep p bId oldUsers newUsers c []

/-- The mutation flag the user step reports in a cycle: false when the user
attribute reports no change (updateAwsMqBrokerUsers is then not called). -/
def mqCycleUsersMutated (p : UpdatePlan) (bId : String)
    (oldUsers newUsers : List UserMap) (c : MqUpdateClient) : Bool :=
  p.hasChangeUser && (updateAwsMqBrokerUsers c.userCalls bId oldUsers newUsers).1

/-- The listed groups of a declared user map, as the second loop of the diff
computes them: Set.List() of the groups set when the key is present, the nil
slice otherwise. -/
def ngOf (nu : UserMap) : List String :=
  match nu.groups with
  | some g => setListG g
  | none => []

/-- Building a *schema.Set of strings from a list (schema element decoding
or schema.NewSet over HashString): hashing forgets order and duplicates,
leaving the finite set of elements. -/
def schemaNewSetString (l : List String) : Finset String :=
  l.toFinset

/-- A user map whose groups set has been built from the given list. -/
def userWithGroups (u : UserMap) (l : List String) : UserMap :=
  { u with groups := some (GVal.set (schemaNewSetString l)) }

/-- The per-user decision of the update phase of the diff: an update request
is produced exactly for a declared user found in existingUsers whose
listified map differs from the stored one. -/
def urDecision (bId : String) (exist : ExistingUsers) (nu : UserMap) :
    Option UpdateUserRequest :=
  match lookupU nu.username exist with
  | some eu =>
    if eu = listifyU nu then none else some (mkUpdate bId (listifyU nu) (ngOf nu))
  | none => none

theorem listifyU_username (u : UserMap) : (listifyU u).username = u.username := by
  unfold listifyU
  cases u.groups <;> rfl

theorem listifyU_password (u : UserMap) : (listifyU u).password = u.password := by
  unfold listifyU
  cases u.groups <;> rfl

theorem listifyU_console (u : UserMap) : (listifyU u).console_access = u.console_access := by
  unfold listifyU
  cases u.groups <;> rfl

theorem lookupU_eq_none_iff (k : String) (l : ExistingUsers) :
    lookupU k l = none ↔ ∀ p ∈ l, p.1 ≠ k := by
  induction l with
  | nil => simp [lookupU]
  | cons p rest ih =>
    by_cases h : p.1 = k
    · simp [lookupU, h]
    · simp [lookupU, h, ih]

theorem lookupU_erase_ne (k m : String) (l : ExistingUsers) (h : k ≠ m) :
    lookupU k (eraseU m l) = lookupU k l := by
  induction l with
  | nil => rfl
  | cons p rest ih =>
    by_cases hm : p.1 = m
    · have hp : ¬ p.1 = k := by
        rw [hm]
        exact fun hc => h hc.symm
      have h1 : eraseU m (p :: rest) = eraseU m rest := by
        simp [eraseU, List.filter_cons, hm]
      rw [h1, ih]
      simp only [lookupU, if_neg hp]
    · have h1 : eraseU m (p :: rest) = p :: eraseU m rest := by
        simp [eraseU, List.filter_cons, hm]
      rw [h1]
      by_cases hp : p.1 = k
      · simp only [lookupU, if_pos hp]
      · simp only [lookupU, if_neg hp]
        exact ih

theorem insertU_of_not_mem (k : String) (v : UserMap) (l : ExistingUsers)
    (h : ∀ p ∈ l, p.1 ≠ k) : insertU k v l = l ++ [(k, v)] := by
  induction l with
  | nil => rfl
  | cons p rest ih =>
    have hp : p.1 ≠ k := h p (by simp)
    simp only [insertU, if_neg hp, List.cons_append, List.cons.injEq, true_and]
    exact ih (fun q hq => h q (by simp [hq]))

theorem mkExistingAux_snd (us : List UserMap) : ∀ a l,
    (mkExistingAux (a, l) us).2 = l ++ us.map listifyU := by
  induction us with
  | nil =>
    intro a l
    simp [mkExistingAux]
  | cons u rest ih =>
    intro a l
    simp only [mkExistingAux, List.map_cons]
    rw [ih]
    simp

theorem mkExistingAux_fst (us : List UserMap) : ∀ a l,
    (us.map UserMap.username).Nodup →
    (∀ u ∈ us, ∀ p ∈ a, p.1 ≠ u.username) →
    (mkExistingAux (a, l) us).1 = a ++ us.map (fun u => (u.username, listifyU u)) := by
  induction us with
  | nil =>
    intro a l _ _
    simp [mkExistingAux]
  | cons u rest ih =>
    intro a l hnd hdisj
    have hkey : (listifyU u).username = u.username := listifyU_username u
    have hins : insertU (listifyU u).username (listifyU u) a
        = a ++ [(u.username, listifyU u)] := by
      rw [hkey]
      exact insertU_of_not_mem _ _ _ (fun p hp => hdisj u (by simp) p hp)
    have hnd2 : (rest.map UserMap.username).Nodup := by
      rw [List.map_cons] at hnd
      exact (List.nodup_cons.mp hnd).2
    have hhead : u.username ∉ rest.map UserMap.username := by
      rw [List.map_cons] at hnd
      exact (List.nodup_cons.mp hnd).1
    have hdisj2 : ∀ v ∈ rest, ∀ p ∈ a ++ [(u.username, listifyU u)], p.1 ≠ v.username := by
      intro v hv p hp
      rcases List.mem_append.mp hp with h1 | h1
      · exact hdisj v (by simp [hv]) p h1
      · have hpe : p = (u.username, listifyU u) := by simpa using h1
        rw [hpe]
        intro he
        have he2 : u.username = v.username := he
        exact hhead (he2 ▸ List.mem_map_of_mem UserMap.username hv)
    simp only [mkExistingAux, hins]
    rw [ih _ _ hnd2 hdisj2]
    simp [List.append_assoc]

theorem mkExisting_eq (old : List UserMap) (h : (old.map UserMap.username).Nodup) :
    (mkExistingAux ([], []) old).1 = old.map (fun u => (u.username, listifyU u)) := by
  simpa using mkExistingAux_fst old [] [] h (by simp)

theorem lookupU_map_eq_none_iff (k : String) (old : List UserMap) :
    lookupU k (old.map fun u => (u.username, listifyU u)) = none
      ↔ k ∉ old.map UserMap.username := by
  rw [lookupU_eq_none_iff]
  constructor
  · intro hall hc
    obtain ⟨x, hx, hxk⟩ := List.mem_map.mp hc
    exact hall (x.username, listifyU x)
      (List.mem_map_of_mem (fun u => (u.username, listifyU u)) hx) hxk
  · intro hnm p hp
    obtain ⟨x, hx, hxe⟩ := List.mem_map.mp hp
    rw [← hxe]
    intro he
    exact hnm (List.mem_map.mpr ⟨x, hx, he⟩)

theorem lookupU_map_of_mem (old : List UserMap) (h : (old.map UserMap.username).Nodup)
    (u : UserMap) (hu : u ∈ old) :
    lookupU u.username (old.map fun v => (v.username, listifyU v)) = some (listifyU u) := by
  induction old with
  | nil => cases hu
  | cons v rest ih =>
    rw [List.map_cons] at h
    rcases List.mem_cons.mp hu with h1 | h1
    · subst h1
      simp [lookupU]
    · have hne : v.username ≠ u.username := by
        intro he
        exact (List.nodup_cons.mp h).1 (he ▸ List.mem_map_of_mem UserMap.username h1)
      simp only [List.map_cons, lookupU, if_neg hne]
      exact ih (List.nodup_cons.mp h).2 h1

theorem processNew_cons (bId : String) (exist : ExistingUsers) (nu : UserMap)
    (rest : List UserMap) :
    processNew bId exist (nu :: rest) =
      match lookupU nu.username exist with
      | some eu =>
        let res := processNew bId (eraseU nu.username exist) rest
        if eu = listifyU nu then res
        else (res.1, mkUpdate bId (listifyU nu) (ngOf nu) :: res.2.1, res.2.2)
      | none =>
        let res := processNew bId exist rest
        (mkCreate bId (listifyU nu) (ngOf nu) :: res.1, res.2.1, res.2.2) := rfl

theorem processNew_creates (bId : String) (ns : List UserMap) : ∀ exist : ExistingUsers,
    (ns.map UserMap.username).Nodup →
    (processNew bId exist ns).1 =
      (ns.filter (fun nu => (lookupU nu.username exist).isNone)).map
        (fun nu => mkCreate bId (listifyU nu) (ngOf nu)) := by
  induction ns with
  | nil =>
    intro exist _
    rfl
  | cons nu rest ih =>
    intro exist hnd
    rw [List.map_cons] at hnd
    have hnd2 := (List.nodup_cons.mp hnd).2
    have hhead := (List.nodup_cons.mp hnd).1
    have hlook : ∀ m ∈ rest,
        lookupU m.username (eraseU nu.username exist) = lookupU m.username exist := by
      intro m hm
      apply lookupU_erase_ne
      intro he
      exact hhead (he ▸ List.mem_map_of_mem UserMap.username hm)
    rw [processNew_cons]
    cases hcase : lookupU nu.username exist with
    | some eu =>
      have hfilter : (nu :: rest).filter (fun x => (lookupU x.username exist).isNone)
          = rest.filter (fun x => (lookupU x.username exist).isNone) := by
        simp [List.filter_cons, hcase]
      rw [hfilter]
      have hcongr : rest.filter (fun x => (lookupU x.username (eraseU nu.username exist)).isNone)
          = rest.filter (fun x => (lookupU x.username exist).isNone) :=
        List.filter_congr (fun m hm => by rw [hlook m hm])
      by_cases he : eu = listifyU nu
      · simp only [if_pos he]
        rw [ih (eraseU nu.username exist) hnd2, hcongr]
      · simp only [if_neg he]
        rw [ih (eraseU nu.username exist) hnd2, hcongr]
    | none =>
      have hfilter : (nu :: rest).filter (fun x => (lookupU x.username exist).isNone)
          = nu :: rest.filter (fun x => (lookupU x.username exist).isNone) := by
        simp [List.filter_cons, hcase]
      rw [hfilter, List.map_cons]
      simp only [List.cons.injEq, true_and]
      exact ih exist hnd2

theorem processNew_updates (bId : String) (ns : List UserMap) : ∀ exist : ExistingUsers,
    (ns.map UserMap.username).Nodup →
    (processNew bId exist ns).2.1 = ns.filterMap (urDecision bId exist) := by
  induction ns with
  | nil =>
    intro exist _
    rfl
  | cons nu rest ih =>
    intro exist hnd
    rw [List.map_cons] at hnd
    have hnd2 := (List.nodup_cons.mp hnd).2
    have hhead := (List.nodup_cons.mp hnd).1
    have hlook : ∀ m ∈ rest,
        lookupU m.username (eraseU nu.username exist) = lookupU m.username exist := by
      intro m hm
      apply lookupU_erase_ne
      intro he
      exact hhead (he ▸ List.mem_map_of_mem UserMap.username hm)
    have hcongr : rest.filterMap (urDecision bId (eraseU nu.username exist))
        = rest.filterMap (urDecision bId exist) :=
      List.filterMap_congr (fun m hm => by rw [urDecision, urDecision, hlook m hm])
    rw [processNew_cons]
    cases hcase : lookupU nu.username exist with
    | some eu =>
      have hdec : urDecision bId exist nu
          = if eu = listifyU nu then none
            else some (mkUpdate bId (listifyU nu) (ngOf nu)) := by
        rw [urDecision, hcase]
      by_cases he : eu = listifyU nu
      · simp only [if_pos he]
        rw [List.filterMap_cons, hdec, if_pos he]
        rw [ih (eraseU nu.username exist) hnd2, hcongr]
      · simp only [if_neg he]
        rw [List.filterMap_cons, hdec, if_neg he]
        simp only [List.cons.injEq, true_and]
        rw [ih (eraseU nu.username exist) hnd2, hcongr]
    | none =>
      have hdec : urDecision bId exist nu = none := by
        rw [urDecision, hcase]
      rw [List.filterMap_cons, hdec]
      exact ih exist hnd2

theorem processNew_remaining (bId : String) (ns : List UserMap) : ∀ exist : ExistingUsers,
    (processNew bId exist ns).2.2
      = exist.filter (fun p => p.1 ∉ ns.map UserMap.username) := by
  induction ns with
  | nil =>
    intro exist
    simp [processNew]
  | cons nu rest ih =>
    intro exist
    rw [processNew_cons]
    cases hcase : lookupU nu.username exist with
    | some eu =>
      have hstep : (eraseU nu.username exist).filter
            (fun p => p.1 ∉ rest.map UserMap.username)
          = exist.filter (fun p => p.1 ∉ (nu :: rest).map UserMap.username) := by
        rw [eraseU, List.filter_filter]
        apply List.filter_congr
        intro p _
        rw [← Bool.decide_and]
        apply decide_eq_decide.mpr
        simp [List.mem_cons, not_or, and_comm]
      by_cases he : eu = listifyU nu
      · simp only [if_pos he]
        rw [ih (eraseU nu.username exist), hstep]
      · simp only [if_neg he]
        rw [ih (eraseU nu.username exist), hstep]
    | none =>
      have hnomem : ∀ p ∈ exist, p.1 ≠ nu.username :=
        (lookupU_eq_none_iff nu.username exist).mp hcase
      rw [ih exist]
      apply List.filter_congr
      intro p hp
      apply decide_eq_decide.mpr
      simp [List.mem_cons, hnomem p hp]

theorem mkCreate_username (bId : String) (nu : UserMap) (ng : List String) :
    (mkCreate bId nu ng).username = nu.username := rfl

theorem mkUpdate_username (bId : String) (nu : UserMap) (ng : List String) :
    (mkUpdate bId nu ng).username = nu.username := rfl

theorem urDecision_username (bId : String) (exist : ExistingUsers) (nu : UserMap)
    (r : UpdateUserRequest) (h : urDecision bId exist nu = some r) :
    r.username = nu.username := by
  rw [urDecision] at h
  split at h
  · split at h
    · cases h
    · injection h with h2
      rw [← h2, mkUpdate_username, listifyU_username]
  · cases h

theorem lookupU_map_some (old : List UserMap) (k : String) (w : UserMap)
    (h : lookupU k (old.map fun v => (v.username, listifyU v)) = some w) :
    ∃ o ∈ old, o.username = k ∧ w = listifyU o := by
  induction old with
  | nil => cases h
  | cons v rest ih =>
    rw [List.map_cons] at h
    by_cases hv : v.username = k
    · simp only [lookupU, hv, if_true, Option.some.injEq] at h
      exact ⟨v, by simp, hv, h.symm⟩
    · simp only [lookupU, hv, if_false] at h
      obtain ⟨o, ho, hk, hw⟩ := ih h
      exact ⟨o, by simp [ho], hk, hw⟩

theorem diffCreates_eq (bId : String) (old new : List UserMap)
    (hold : (old.map UserMap.username).Nodup) (hnew : (new.map UserMap.username).Nodup) :
    diffCreates bId old new =
      (new.filter (fun nu =>
        (lookupU nu.username (old.map fun v => (v.username, listifyU v))).isNone)).map
        (fun nu => mkCreate bId (listifyU nu) (ngOf nu)) := by
  rw [diffCreates]
  simp only [diffAwsMqBrokerUsers]
  rw [mkExisting_eq old hold, processNew_creates bId new _ hnew]

theorem diffUpdates_eq (bId : String) (old new : List UserMap)
    (hold : (old.map UserMap.username).Nodup) (hnew : (new.map UserMap.username).Nodup) :
    diffUpdates bId old new =
      new.filterMap (urDecision bId (old.map fun v => (v.username, listifyU v))) := by
  rw [diffUpdates]
  simp only [diffAwsMqBrokerUsers]
  rw [mkExisting_eq old hold, processNew_updates bId new _ hnew]

theorem diffDeletes_eq (bId : String) (old new : List UserMap)
    (hold : (old.map UserMap.username).Nodup) :
    diffDeletes bId old new =
      (((old.map fun v => (v.username, listifyU v)).filter
          (fun p => p.1 ∉ new.map UserMap.username)).map
        (fun p => DeleteUserInput.mk bId p.1)) := by
  rw [diffDeletes]
  simp only [diffAwsMqBrokerUsers]
  rw [mkExisting_eq old hold, processNew_remaining bId new]

theorem diffCreates_names (bId : String) (old new : List UserMap)
    (hold : (old.map UserMap.username).Nodup) (hnew : (new.map UserMap.username).Nodup) :
    (diffCreates bId old new).map CreateUserRequest.username =
      (new.filter (fun nu =>
        (lookupU nu.username (old.map fun v => (v.username, listifyU v))).isNone)).map
        UserMap.username := by
  rw [diffCreates_eq bId old new hold hnew, List.map_map]
  apply List.map_eq_map_iff.mpr
  intro nu _
  show (mkCreate bId (listifyU nu) (ngOf nu)).username = nu.username
  rw [mkCreate_username, listifyU_username]

theorem diffDeletes_names (bId : String) (old new : List UserMap)
    (hold : (old.map UserMap.username).Nodup) :
    (diffDeletes bId old new).map DeleteUserInput.username =
      ((old.map fun v => (v.username, listifyU v)).filter
        (fun p => p.1 ∉ new.map UserMap.username)).map Prod.fst := by
  rw [diffDeletes_eq bId old new hold, List.map_map]
  rfl

theorem diffCreates_mem_iff (bId : String) (old new : List UserMap)
    (hold : (old.map UserMap.username).Nodup) (hnew : (new.map UserMap.username).Nodup)
    (u : String) :
    u ∈ (diffCreates bId old new).map CreateUserRequest.username ↔
      (u ∈ new.map UserMap.username ∧ u ∉ old.map UserMap.username) := by
  rw [diffCreates_names bId old new hold hnew]
  constructor
  · intro hu
    obtain ⟨nu, hnu, hname⟩ := List.mem_map.mp hu
    have hmem := List.mem_filter.mp hnu
    refine ⟨List.mem_map.mpr ⟨nu, hmem.1, hname⟩, ?_⟩
    have hnone : lookupU nu.username (old.map fun v => (v.username, listifyU v)) = none :=
      Option.isNone_iff_eq_none.mp hmem.2
    rw [← hname]
    exact (lookupU_map_eq_none_iff nu.username old).mp hnone
  · rintro ⟨hin, hout⟩
    obtain ⟨nu, hnu, hname⟩ := List.mem_map.mp hin
    apply List.mem_map.mpr
    refine ⟨nu, List.mem_filter.mpr ⟨hnu, ?_⟩, hname⟩
    have hnone : lookupU nu.username (old.map fun v => (v.username, listifyU v)) = none :=
      (lookupU_map_eq_none_iff nu.username old).mpr (hname ▸ hout)
    rw [hnone]
    rfl

theorem diffDeletes_mem_iff (bId : String) (old new : List UserMap)
    (hold : (old.map UserMap.username).Nodup) (u : String) :
    u ∈ (diffDeletes bId old new).map DeleteUserInput.username ↔
      (u ∈ old.map UserMap.username ∧ u ∉ new.map UserMap.username) := by
  rw [diffDeletes_names bId old new hold]
  constructor
  · intro hu
    obtain ⟨p, hp, hfst⟩ := List.mem_map.mp hu
    have hmem := List.mem_filter.mp hp
    obtain ⟨o, ho, hpair⟩ := List.mem_map.mp hmem.1
    constructor
    · refine List.mem_map.mpr ⟨o, ho, ?_⟩
      rw [← hfst, ← hpair]
    · have hq : p.1 ∉ new.map UserMap.username := of_decide_eq_true hmem.2
      rw [← hfst]
      exact hq
  · rintro ⟨hin, hout⟩
    obtain ⟨o, ho, hname⟩ := List.mem_map.mp hin
    apply List.mem_map.mpr
    refine ⟨(o.username, listifyU o),
      List.mem_filter.mpr ⟨List.mem_map_of_mem _ ho, ?_⟩, hname⟩
    exact decide_eq_true (by simpa [hname] using hout)

theorem diffUpdates_mem_iff (bId : String) (old new : List UserMap)
    (hold : (old.map UserMap.username).Nodup) (hnew : (new.map UserMap.username).Nodup)
    (u : String) :
    u ∈ (diffUpdates bId old new).map UpdateUserRequest.username ↔
      ∃ o n, o ∈ old ∧ n ∈ new ∧ o.username = u ∧ n.username = u
        ∧ listifyU o ≠ listifyU n := by
  rw [diffUpdates_eq bId old new hold hnew]
  constructor
  · intro hu
    obtain ⟨r, hr, hname⟩ := List.mem_map.mp hu
    obtain ⟨n, hn, hdec⟩ := List.mem_filterMap.mp hr
    have hnr : r.username = n.username := urDecision_username _ _ _ _ hdec
    rw [urDecision] at hdec
    cases hcase : lookupU n.username (old.map fun v => (v.username, listifyU v)) with
    | none =>
      rw [hcase] at hdec
      cases hdec
    | some eu =>
      rw [hcase] at hdec
      dsimp only at hdec
      by_cases he : eu = listifyU n
      · rw [if_pos he] at hdec
        cases hdec
      · obtain ⟨o, ho, honame, hoeq⟩ := lookupU_map_some old n.username eu hcase
        refine ⟨o, n, ho, hn, ?_, ?_, ?_⟩
        · rw [honame, ← hnr, hname]
        · rw [← hnr, hname]
        · rw [← hoeq]
          exact he
  · rintro ⟨o, n, ho, hn, hou, hnu2, hdiff⟩
    have hlook : lookupU n.username (old.map fun v => (v.username, listifyU v))
        = some (listifyU o) := by
      have := lookupU_map_of_mem old hold o ho
      rw [hou, ← hnu2] at this
      exact this
    have hdec : urDecision bId (old.map fun v => (v.username, listifyU v)) n
        = some (mkUpdate bId (listifyU n) (ngOf n)) := by
      rw [urDecision, hlook]
      dsimp only
      rw [if_neg hdiff]
    refine List.mem_map.mpr ⟨mkUpdate bId (listifyU n) (ngOf n),
      List.mem_filterMap.mpr ⟨n, hn, hdec⟩, ?_⟩
    rw [mkUpdate_username, listifyU_username, hnu2]

theorem diffCreates_names_nodup (bId : String) (old new : List UserMap)
    (hold : (old.map UserMap.username).Nodup) (hnew : (new.map UserMap.username).Nodup) :
    ((diffCreates bId old new).map CreateUserRequest.username).Nodup := by
  rw [diffCreates_names bId old new hold hnew]
  exact List.Nodup.sublist ((List.filter_sublist new).map UserMap.username) hnew

theorem diffDeletes_names_nodup (bId : String) (old new : List UserMap)
    (hold : (old.map UserMap.username).Nodup) :
    ((diffDeletes bId old new).map DeleteUserInput.username).Nodup := by
  rw [diffDeletes_names bId old new hold]
  have hsub := (List.filter_sublist
    (p := fun p => decide (p.1 ∉ new.map UserMap.username))
    (old.map fun v => (v.username, listifyU v))).map Prod.fst
  have hE : ((old.map fun v => (v.username, listifyU v)).map Prod.fst)
      = old.map UserMap.username := by
    rw [List.map_map]
    rfl
  rw [hE] at hsub
  exact List.Nodup.sublist hsub hold

theorem map_filterMap_names_sublist (f : UserMap → Option UpdateUserRequest)
    (l : List UserMap) (H : ∀ a r, f a = some r → r.username = a.username) :
    ((l.filterMap f).map UpdateUserRequest.username).Sublist (l.map UserMap.username) := by
  induction l with
  | nil => simp
  | cons a rest ih =>
    rw [List.filterMap_cons]
    cases hfa : f a with
    | none =>
      rw [List.map_cons]
      exact ih.cons _
    | some r =>
      rw [List.map_cons, List.map_cons, H a r hfa]
      exact ih.cons₂ _

theorem diffUpdates_names_nodup (bId : String) (old new : List UserMap)
    (hold : (old.map UserMap.username).Nodup) (hnew : (new.map UserMap.username).Nodup) :
    ((diffUpdates bId old new).map UpdateUserRequest.username).Nodup := by
  rw [diffUpdates_eq bId old new hold hnew]
  exact List.Nodup.sublist
    (map_filterMap_names_sublist _ new (fun a r h => urDecision_username _ _ a r h)) hnew

theorem applyUserReqs_mutated (client : MqUserClient) (m : Bool) (reqs : List MqReq) :
    (applyUserReqs client m reqs).1 = (m || !reqs.isEmpty) := by
  induction reqs generalizing m with
  | nil => simp [applyUserReqs]
  | cons r rest ih =>
    simp only [applyUserReqs]
    cases hc : client r with
    | some e => simp
    | none =>
      dsimp only
      rw [ih true]
      simp

theorem applyUserReqs_err (client : MqUserClient) (m : Bool) (reqs : List MqReq) :
    (applyUserReqs client m reqs).2.1 = (applyCallsSpec client reqs).1 := by
  induction reqs generalizing m with
  | nil => rfl
  | cons r rest ih =>
    simp only [applyUserReqs, applyCallsSpec]
    cases hc : client r with
    | some e => rfl
    | none =>
      dsimp only
      exact ih true

theorem applyUserReqs_trace (client : MqUserClient) (m : Bool) (reqs : List MqReq) :
    (applyUserReqs client m reqs).2.2 = (applyCallsSpec client reqs).2 := by
  induction reqs generalizing m with
  | nil => rfl
  | cons r rest ih =>
    simp only [applyUserReqs, applyCallsSpec]
    cases hc : client r with
    | some e => rfl
    | none =>
      dsimp only
      rw [ih true]

theorem applyCallsSpec_append (client : MqUserClient) (l1 l2 : List MqReq) :
    applyCallsSpec client (l1 ++ l2) =
      if (applyCallsSpec client l1).1 = none
      then ((applyCallsSpec client l2).1,
            (applyCallsSpec client l1).2 ++ (applyCallsSpec client l2).2)
      else applyCallsSpec client l1 := by
  induction l1 with
  | nil => simp [applyCallsSpec]
  | cons r rest ih =>
    simp only [List.cons_append, applyCallsSpec]
    cases hc : client r with
    | some e => simp
    | none =>
      dsimp only
      simp only [List.append_eq]
      rw [ih]
      by_cases hcc : (applyCallsSpec client rest).1 = none
      · simp [hcc]
      · simp [hcc]

theorem insertPair_of_not_mem (k v : String) (l : List (String × String))
    (h : ∀ p ∈ l, p.1 ≠ k) : insertPair k v l = l ++ [(k, v)] := by
  induction l with
  | nil => rfl
  | cons p rest ih =>
    have hp : p.1 ≠ k := h p (by simp)
    simp only [insertPair, if_neg hp, List.cons_append, List.cons.injEq, true_and]
    exact ih (fun q hq => h q (by simp [hq]))

theorem mkPairs_foldl (us : List UserMap) : ∀ acc : List (String × String),
    (us.map UserMap.username).Nodup →
    (∀ u ∈ us, ∀ p ∈ acc, p.1 ≠ u.username) →
    us.foldl (fun acc u => insertPair u.username u.password acc) acc
      = acc ++ us.map (fun u => (u.username, u.password)) := by
  induction us with
  | nil =>
    intro acc _ _
    simp
  | cons u rest ih =>
    intro acc hnd hdisj
    rw [List.map_cons] at hnd
    have hhead := (List.nodup_cons.mp hnd).1
    have hins : insertPair u.username u.password acc = acc ++ [(u.username, u.password)] :=
      insertPair_of_not_mem _ _ _ (fun p hp => hdisj u (by simp) p hp)
    have hdisj2 : ∀ v ∈ rest, ∀ p ∈ acc ++ [(u.username, u.password)], p.1 ≠ v.username := by
      intro v hv p hp
      rcases List.mem_append.mp hp with h1 | h1
      · exact hdisj v (by simp [hv]) p h1
      · have hpe : p = (u.username, u.password) := by simpa using h1
        rw [hpe]
        intro he
        have he2 : u.username = v.username := he
        exact hhead (he2 ▸ List.mem_map_of_mem UserMap.username hv)
    rw [List.foldl_cons, hins, ih _ (List.nodup_cons.mp hnd).2 hdisj2]
    simp [List.append_assoc]

theorem mkPairs_eq (cfg : List UserMap) (h : (cfg.map UserMap.username).Nodup) :
    mkPairs cfg = cfg.map (fun u => (u.username, u.password)) := by
  simpa using mkPairs_foldl cfg [] h (by simp)

theorem lookupPair_map_of_mem (cfg : List UserMap) (h : (cfg.map UserMap.username).Nodup)
    (c : UserMap) (hc : c ∈ cfg) :
    lookupPair c.username (cfg.map fun u => (u.username, u.password)) = some c.password := by
  induction cfg with
  | nil => cases hc
  | cons v rest ih =>
    rw [List.map_cons] at h
    rcases List.mem_cons.mp hc with h1 | h1
    · subst h1
      simp [lookupPair]
    · have hne : v.username ≠ c.username := by
        intro he
        exact (List.nodup_cons.mp h).1 (he ▸ List.mem_map_of_mem UserMap.username h1)
      simp only [List.map_cons, lookupPair, if_neg hne]
      exact ih (List.nodup_cons.mp h).2 h1

theorem lookupPair_map_eq_none (k : String) (cfg : List UserMap)
    (h : ∀ c ∈ cfg, c.username ≠ k) :
    lookupPair k (cfg.map fun u => (u.username, u.password)) = none := by
  induction cfg with
  | nil => rfl
  | cons v rest ih =>
    have hv : v.username ≠ k := h v (by simp)
    simp only [List.map_cons, lookupPair, if_neg hv]
    exact ih (fun c hc => h c (by simp [hc]))

theorem mqUpdateTagsStep_mem (p : UpdatePlan) (c : MqUpdateClient) (trace : List BrokerAction)
    (a : BrokerAction) (ha : a ≠ BrokerAction.updateTags) :
    (a ∈ (mqUpdateTagsStep p c trace).1 ↔ a ∈ trace) := by
  rw [mqUpdateTagsStep]
  by_cases h : p.hasChangeTags
  · rw [if_pos h]
    simp [List.mem_append, ha]
  · rw [if_neg h]

theorem mqRebootStep_mem (p : UpdatePlan) (c : MqUpdateClient) (rr : Bool)
    (trace : List BrokerAction) (hr : c.rebootBroker = none)
    (hnor : BrokerAction.rebootBroker ∉ trace) :
    (BrokerAction.rebootBroker ∈ (mqRebootStep p c rr trace).1
        ↔ (p.applyImmediately = true ∧ rr = true)) ∧
    (BrokerAction.rebootBroker ∈ (mqRebootStep p c rr trace).1
        → BrokerAction.waitForRunning ∈ (mqRebootStep p c rr trace).1) := by
  rw [mqRebootStep]
  by_cases h : p.applyImmediately && rr
  · rw [if_pos h, hr]
    dsimp only
    cases hw : c.waitForRunning with
    | some e =>
      constructor
      · constructor
        · intro _
          exact Bool.and_eq_true_iff.mp h
        · intro _
          simp [List.mem_append]
      · intro _
        simp [List.mem_append]
    | none =>
      have hwmem := mqUpdateTagsStep_mem p c
        (trace ++ [BrokerAction.rebootBroker, BrokerAction.waitForRunning])
        BrokerAction.waitForRunning (by simp)
      have hrmem := mqUpdateTagsStep_mem p c
        (trace ++ [BrokerAction.rebootBroker, BrokerAction.waitForRunning])
        BrokerAction.rebootBroker (by simp)
      constructor
      · rw [hrmem]
        constructor
        · intro _
          exact Bool.and_eq_true_iff.mp h
        · intro _
          simp [List.mem_append]
      · intro _
        rw [hwmem]
        simp [List.mem_append]
  · rw [if_neg h]
    have hrmem := mqUpdateTagsStep_mem p c trace BrokerAction.rebootBroker (by simp)
    constructor
    · rw [hrmem]
      constructor
      · intro hmem
        exact absurd hmem hnor
      · intro hc
        exact absurd (Bool.and_eq_true_iff.mpr hc) h
    · intro hmem
      rw [hrmem] at hmem
      exact absurd hmem hnor

theorem mqUserStep_eq (p : UpdatePlan) (bId : String) (oldUsers newUsers : List UserMap)
    (c : MqUpdateClient) (rr : Bool) (trace : List BrokerAction)
    (hu : p.hasChangeUser = true →
      (updateAwsMqBrokerUsers c.userCalls bId oldUsers newUsers).2.1 = none) :
    mqUserStep p bId oldUsers newUsers c rr trace
      = mqRebootStep p c (rr || mqCycleUsersMutated p bId oldUsers newUsers c)
          (trace ++ (if p.hasChangeUser
            then (updateAwsMqBrokerUsers c.userCalls bId oldUsers newUsers).2.2.map
                BrokerAction.userCall
            else [])) := by
  rw [mqUserStep, mqCycleUsersMutated]
  by_cases h : p.hasChangeUser
  · rw [if_pos h, if_pos h]
    dsimp only
    rw [hu h]
    dsimp only
    rw [h]
    simp
  · rw [if_neg h, if_neg h]
    have hb : p.hasChangeUser = false := by
      revert h
      cases p.hasChangeUser <;> simp
    rw [hb]
    simp

theorem mqConfigStep_eq (p : UpdatePlan) (bId : String) (oldUsers newUsers : List UserMap)
    (c : MqUpdateClient) (trace : List BrokerAction)
    (hcfg : p.hasChangeConfigurationLogs = true → c.updateBrokerConfigurationLogs = none) :
    mqConfigStep p bId oldUsers newUsers c trace
      = mqUserStep p bId oldUsers newUsers c p.hasChangeConfigurationLogs
          (trace ++ (if p.hasChangeConfigurationLogs
            then [BrokerAction.updateBrokerConfigurationLogs] else [])) := by
  rw [mqConfigStep]
  by_cases h : p.hasChangeConfigurationLogs
  · rw [if_pos h, if_pos h, hcfg h]
    dsimp only
    rw [h]
  · rw [if_neg h, if_neg h]
    have hb : p.hasChangeConfigurationLogs = false := by
      revert h
      cases p.hasChangeConfigurationLogs <;> simp
    rw [hb]
    simp

theorem resourceAwsMqBrokerUpdate_eq (p : UpdatePlan) (bId : String)
    (oldUsers newUsers : List UserMap) (c : MqUpdateClient)
    (hsg : p.hasChangeSecurityGroups = true → c.updateBrokerSecurityGroups = none) :
    resourceAwsMqBrokerUpdate p bId oldUsers newUsers c
      = mqConfigStep p bId oldUsers newUsers c
          (if p.hasChangeSecurityGroups then [BrokerAction.updateBrokerSecurityGroups]
           else []) := by
  rw [resourceAwsMqBrokerUpdate]
  by_cases h : p.hasChangeSecurityGroups
  · rw [if_pos h, if_pos h, hsg h]
  · rw [if_neg h, if_neg h]

/-- C1: for observed and declared collections with unique usernames, the
diff computed by diffAwsMqBrokerUsers assigns every username to exactly one
of ToCreate (declared, not observed), ToUpdate (in both, listified maps
differ), ToDelete (observed, not declared) or none of the three; no
username is in two lists, and no list repeats a username. -/
theorem claim_C1_diff_partition (bId : String) (old new : List UserMap)
    (hold : (old.map UserMap.username).Nodup) (hnew : (new.map UserMap.username).Nodup) :
    (∀ u, u ∈ (diffCreates bId old new).map CreateUserRequest.username ↔
        (u ∈ new.map UserMap.username ∧ u ∉ old.map UserMap.username)) ∧
    (∀ u, u ∈ (diffDeletes bId old new).map DeleteUserInput.username ↔
        (u ∈ old.map UserMap.username ∧ u ∉ new.map UserMap.username)) ∧
    (∀ u, u ∈ (diffUpdates bId old new).map UpdateUserRequest.username ↔
        ∃ o n, o ∈ old ∧ n ∈ new ∧ o.username = u ∧ n.username = u
          ∧ listifyU o ≠ listifyU n) ∧
    (∀ u, ¬ (u ∈ (diffCreates bId old new).map CreateUserRequest.username
        ∧ u ∈ (diffDeletes bId old new).map DeleteUserInput.username)) ∧
    (∀ u, ¬ (u ∈ (diffCreates bId old new).map CreateUserRequest.username
        ∧ u ∈ (diffUpdates bId old new).map UpdateUserRequest.username)) ∧
    (∀ u, ¬ (u ∈ (diffDeletes bId old new).map DeleteUserInput.username
        ∧ u ∈ (diffUpdates bId old new).map UpdateUserRequest.username)) ∧
    ((diffCreates bId old new).map CreateUserRequest.username).Nodup ∧
    ((diffDeletes bId old new).map DeleteUserInput.username).Nodup ∧
    ((diffUpdates bId old new).map UpdateUserRequest.username).Nodup := by
  refine ⟨diffCreates_mem_iff bId old new hold hnew,
    diffDeletes_mem_iff bId old new hold,
    diffUpdates_mem_iff bId old new hold hnew, ?_, ?_, ?_,
    diffCreates_names_nodup bId old new hold hnew,
    diffDeletes_names_nodup bId old new hold,
    diffUpdates_names_nodup bId old new hold hnew⟩
  · rintro u ⟨hc, hd⟩
    have h1 := (diffCreates_mem_iff bId old new hold hnew u).mp hc
    have h2 := (diffDeletes_mem_iff bId old new hold u).mp hd
    exact h1.2 h2.1
  · rintro u ⟨hc, hu⟩
    have h1 := (diffCreates_mem_iff bId old new hold hnew u).mp hc
    obtain ⟨o, n, ho, _, hou, _, _⟩ := (diffUpdates_mem_iff bId old new hold hnew u).mp hu
    exact h1.2 (List.mem_map.mpr ⟨o, ho, hou⟩)
  · rintro u ⟨hd, hu⟩
    have h1 := (diffDeletes_mem_iff bId old new hold u).mp hd
    obtain ⟨o, n, _, hn, _, hnu2, _⟩ := (diffUpdates_mem_iff bId old new hold hnew u).mp hu
    exact h1.2 (List.mem_map.mpr ⟨n, hn, hnu2⟩)

theorem claim_C1_witness :
    ((([⟨false, some (GVal.set {"admin", "ops"}), "alicepwd12345", "alice"⟩] :
        List UserMap).map UserMap.username).Nodup) ∧
    "bob" ∈ (diffCreates "b"
      [⟨false, some (GVal.set {"admin", "ops"}), "alicepwd12345", "alice"⟩]
      [⟨false, some (GVal.set {"ops", "admin"}), "alicepwd12345", "alice"⟩,
       ⟨false, none, "bobpwd1234567", "bob"⟩]).map CreateUserRequest.username :=
  ⟨by decide,
    ((claim_C1_diff_partition "b"
      [⟨false, some (GVal.set {"admin", "ops"}), "alicepwd12345", "alice"⟩]
      [⟨false, some (GVal.set {"ops", "admin"}), "alicepwd12345", "alice"⟩,
       ⟨false, none, "bobpwd1234567", "bob"⟩]
      (by decide) (by decide)).1 "bob").mpr (by decide)⟩

/-- C4: diffing a declared collection with unique usernames against itself
yields empty create, delete and update lists. -/
theorem claim_C4_self_diff_empty (bId : String) (d : List UserMap)
    (hd : (d.map UserMap.username).Nodup) :
    (diffAwsMqBrokerUsers bId d d).1 = ([], [], []) := by
  have hcr : diffCreates bId d d = [] := by
    rw [diffCreates_eq bId d d hd hd]
    have hall : ∀ nu ∈ d,
        ¬ ((lookupU nu.username (d.map fun v => (v.username, listifyU v))).isNone = true) := by
      intro nu hnu
      rw [lookupU_map_of_mem d hd nu hnu]
      simp
    rw [List.filter_eq_nil_iff.mpr hall]
    rfl
  have hur : diffUpdates bId d d = [] := by
    rw [diffUpdates_eq bId d d hd hd]
    apply List.filterMap_eq_nil_iff.mpr
    intro n hn
    rw [urDecision, lookupU_map_of_mem d hd n hn]
    dsimp only
    rw [if_pos rfl]
  have hdi : diffDeletes bId d d = [] := by
    rw [diffDeletes_eq bId d d hd]
    have hall : ∀ p ∈ (d.map fun v => (v.username, listifyU v)),
        ¬ (decide (p.1 ∉ d.map UserMap.username) = true) := by
      intro p hp
      obtain ⟨o, ho, hpair⟩ := List.mem_map.mp hp
      simp only [decide_eq_true_eq, not_not]
      rw [← hpair]
      exact List.mem_map_of_mem UserMap.username ho
    rw [List.filter_eq_nil_iff.mpr hall]
    rfl
  have hsplit : (diffAwsMqBrokerUsers bId d d).1
      = (diffCreates bId d d, diffDeletes bId d d, diffUpdates bId d d) := rfl
  rw [hsplit, hcr, hdi, hur]

theorem claim_C4_witness :
    ((([⟨true, some (GVal.set {"ops"}), "alicepwd12345", "alice"⟩,
        ⟨false, none, "bobpwd1234567", "bob"⟩] :
        List UserMap).map UserMap.username).Nodup) ∧
    (diffAwsMqBrokerUsers "b"
      [⟨true, some (GVal.set {"ops"}), "alicepwd12345", "alice"⟩,
       ⟨false, none, "bobpwd1234567", "bob"⟩]
      [⟨true, some (GVal.set {"ops"}), "alicepwd12345", "alice"⟩,
       ⟨false, none, "bobpwd1234567", "bob"⟩]).1 = ([], [], []) :=
  ⟨by decide,
    claim_C4_self_diff_empty "b"
      [⟨true, some (GVal.set {"ops"}), "alicepwd12345", "alice"⟩,
       ⟨false, none, "bobpwd1234567", "bob"⟩] (by decide)⟩

/-- C5: the diff is order-independent on the groups attribute: replacing
any user's groups set by one built from a permuted list leaves the diff
unchanged, on the observed side and on the declared side; and a user
declared with groups that are a permutation of the observed groups (all
other attributes equal) is not placed in the update list. -/
theorem claim_C5_groups_order_independent (bId : String) (u : UserMap)
    (l l2 : List String) (hperm : List.Perm l l2) :
    (∀ old1 old2 new,
      diffAwsMqBrokerUsers bId (old1 ++ userWithGroups u l :: old2) new
        = diffAwsMqBrokerUsers bId (old1 ++ userWithGroups u l2 :: old2) new) ∧
    (∀ old new1 new2,
      diffAwsMqBrokerUsers bId old (new1 ++ userWithGroups u l :: new2)
        = diffAwsMqBrokerUsers bId old (new1 ++ userWithGroups u l2 :: new2)) ∧
    (∀ old new, (old.map UserMap.username).Nodup → (new.map UserMap.username).Nodup →
      userWithGroups u l ∈ old → userWithGroups u l2 ∈ new →
      u.username ∉ (diffUpdates bId old new).map UpdateUserRequest.username) := by
  have hset : userWithGroups u l = userWithGroups u l2 := by
    rw [userWithGroups, userWithGroups, schemaNewSetString, schemaNewSetString,
      List.toFinset_eq_of_perm l l2 hperm]
  refine ⟨fun old1 old2 new => by rw [hset], fun old new1 new2 => by rw [hset], ?_⟩
  intro old new hold hnew hol hnl hmem
  obtain ⟨o, n, ho, hn, hou, hnu2, hdiff⟩ :=
    (diffUpdates_mem_iff bId old new hold hnew u.username).mp hmem
  have ho2 : o = userWithGroups u l := by
    apply List.inj_on_of_nodup_map hold ho hol
    rw [hou]
    rfl
  have hn2 : n = userWithGroups u l2 := by
    apply List.inj_on_of_nodup_map hnew hn hnl
    rw [hnu2]
    rfl
  apply hdiff
  rw [ho2, hn2, hset]

theorem claim_C5_witness :
    List.Perm ["a", "b"] ["b", "a"] ∧
    "alice" ∉ (diffUpdates "b"
      [userWithGroups ⟨false, none, "alicepwd12345", "alice"⟩ ["a", "b"]]
      [userWithGroups ⟨false, none, "alicepwd12345", "alice"⟩ ["b", "a"]]).map
        UpdateUserRequest.username :=
  ⟨by decide,
    (claim_C5_groups_order_independent "b" ⟨false, none, "alicepwd12345", "alice"⟩
      ["a", "b"] ["b", "a"] (by decide)).2.2
      [userWithGroups ⟨false, none, "alicepwd12345", "alice"⟩ ["a", "b"]]
      [userWithGroups ⟨false, none, "alicepwd12345", "alice"⟩ ["b", "a"]]
      (by decide) (by decide) (by simp) (by simp)⟩

/-- C7 counterexample: the claim says diffAwsMqBrokerUsers leaves the
observed per-user maps unmodified; on an observed user whose groups are
held as a set, the call rewrites that map in place (the groups set becomes
a list), so the observed collection after the call differs from the one
passed in. -/
theorem claim_C7_counterexample :
    (diffAwsMqBrokerUsers "b"
      [⟨false, some (GVal.set {"admin"}), "alicepwd12345", "alice"⟩] []).2
      ≠ [⟨false, some (GVal.set {"admin"}), "alicepwd12345", "alice"⟩] := by
  decide

/-- C7 (amended): the diff computes its result from its two inputs alone
and holds no state across calls, and the declared collection's maps are
left unmodified (the source mutates only a deep copy of each); however the
observed collection's maps are rewritten in place: after the call every
observed map is its listified form (each groups set replaced by the
Set.List() value). -/
theorem claim_C7_observed_maps_rewritten (bId : String) (old new : List UserMap) :
    (diffAwsMqBrokerUsers bId old new).2 = old.map listifyU := by
  simp only [diffAwsMqBrokerUsers]
  rw [mkExistingAux_snd]
  simp

/-- C3: updateAwsMqBrokerUsers applies the diff as one ordered pass over
all creates, then all deletes, then all updates, never interleaving the
phases; the first failing remote call aborts everything that remains, its
error is returned unchanged, and the calls issued are exactly those up to
and including the failing one (no rollback calls are ever issued).  This
is stated as equality of the returned (error, issued-calls) pair with the
spec-side single-pass applyCallsSpec over the concatenated phases. -/
theorem claim_C3_phase_order_and_abort (client : MqUserClient) (bId : String)
    (old new : List UserMap) :
    (updateAwsMqBrokerUsers client bId old new).2
      = applyCallsSpec client (allMqReqs bId old new) := by
  simp only [updateAwsMqBrokerUsers, allMqReqs]
  generalize (diffAwsMqBrokerUsers bId old new).1 = d
  generalize d.1.map MqReq.createUser = a
  generalize d.2.1.map MqReq.deleteUser = b
  generalize d.2.2.map MqReq.updateUser = c2
  rw [applyCallsSpec_append client (a ++ b) c2, applyCallsSpec_append client a b]
  cases h1 : (applyUserReqs client false a).2.1 with
  | some e =>
    dsimp only
    have hs1 : (applyCallsSpec client a).1 = some e := by
      rw [← applyUserReqs_err client false a, h1]
    have ht1 : (applyUserReqs client false a).2.2 = (applyCallsSpec client a).2 :=
      applyUserReqs_trace client false a
    rw [ht1]
    simp [hs1]
    rw [← hs1]
  | none =>
    dsimp only
    have hs1 : (applyCallsSpec client a).1 = none := by
      rw [← applyUserReqs_err client false a, h1]
    have ht1 : (applyUserReqs client false a).2.2 = (applyCallsSpec client a).2 :=
      applyUserReqs_trace client false a
    cases h2 : (applyUserReqs client (applyUserReqs client false a).1 b).2.1 with
    | some e =>
      dsimp only
      have hs2 : (applyCallsSpec client b).1 = some e := by
        rw [← applyUserReqs_err client (applyUserReqs client false a).1 b, h2]
      have ht2 : (applyUserReqs client (applyUserReqs client false a).1 b).2.2
          = (applyCallsSpec client b).2 :=
        applyUserReqs_trace client (applyUserReqs client false a).1 b
      rw [ht1, ht2]
      simp [hs1, hs2]
    | none =>
      dsimp only
      have hs2 : (applyCallsSpec client b).1 = none := by
        rw [← applyUserReqs_err client (applyUserReqs client false a).1 b, h2]
      have ht2 : (applyUserReqs client (applyUserReqs client false a).1 b).2.2
          = (applyCallsSpec client b).2 :=
        applyUserReqs_trace client (applyUserReqs client false a).1 b
      have hs3 : (applyUserReqs client
            (applyUserReqs client (applyUserReqs client false a).1 b).1 c2).2.1
          = (applyCallsSpec client c2).1 :=
        applyUserReqs_err client _ c2
      have ht3 : (applyUserReqs client
            (applyUserReqs client (applyUserReqs client false a).1 b).1 c2).2.2
          = (applyCallsSpec client c2).2 :=
        applyUserReqs_trace client _ c2
      rw [ht1, ht2, hs3, ht3]
      simp [hs1, hs2, List.append_assoc]

/-- C2 counterexample: with one declared user, no observed user, and a
remote client whose every call fails, updateAwsMqBrokerUsers returns
mutated = true although no remote call succeeded (the flag is set before
the create call's error is inspected); the claim requires mutated = false
whenever no call succeeds. -/
theorem claim_C2_counterexample :
    ((updateAwsMqBrokerUsers (fun _ => some ⟨"InternalError", "boom"⟩) "b" []
        [⟨false, none, "alicepwd12345", "alice"⟩]).1 = true)
    ∧ (∀ r ∈ (updateAwsMqBrokerUsers (fun _ => some ⟨"InternalError", "boom"⟩) "b" []
        [⟨false, none, "alicepwd12345", "alice"⟩]).2.2,
        (fun (_ : MqReq) => some (AwsErr.mk "InternalError" "boom")) r ≠ none) := by
  decide

/-- C2 (amended): mutated is true exactly when at least one remote call was
issued, that is, exactly when the computed diff contains at least one
create, delete or update request; a failed call also sets the flag, so
mutated can be true although no call succeeded. -/
theorem claim_C2_mutated_iff_calls_issued (client : MqUserClient) (bId : String)
    (old new : List UserMap) :
    ((updateAwsMqBrokerUsers client bId old new).1 = true
      ↔ allMqReqs bId old new ≠ []) := by
  simp only [updateAwsMqBrokerUsers, allMqReqs]
  generalize (diffAwsMqBrokerUsers bId old new).1 = d
  generalize d.1.map MqReq.createUser = a
  generalize d.2.1.map MqReq.deleteUser = b
  generalize d.2.2.map MqReq.updateUser = c2
  cases h1 : (applyUserReqs client false a).2.1 with
  | some e =>
    dsimp only
    rw [applyUserReqs_mutated]
    have ha : a ≠ [] := by
      intro he
      rw [he] at h1
      simp [applyUserReqs] at h1
    cases a with
    | nil => exact absurd rfl ha
    | cons x xs => simp
  | none =>
    dsimp only
    cases h2 : (applyUserReqs client (applyUserReqs client false a).1 b).2.1 with
    | some e =>
      dsimp only
      rw [applyUserReqs_mutated, applyUserReqs_mutated]
      have hb : b ≠ [] := by
        intro he
        rw [he] at h2
        simp [applyUserReqs] at h2
      cases b with
      | nil => exact absurd rfl hb
      | cons x xs => simp
    | none =>
      dsimp only
      rw [applyUserReqs_mutated, applyUserReqs_mutated, applyUserReqs_mutated]
      rcases a with _ | ⟨x, xs⟩ <;> rcases b with _ | ⟨y, ys⟩ <;>
        rcases c2 with _ | ⟨z, zs⟩ <;> simp

/-- C6: flattenMqUsers carries passwords forward from the prior declared
config: a returned user whose username has a non-empty password there gets
exactly that password, and a returned user whose username is absent from
the prior config gets none (the remote read carries no password at all, so
no remote value can ever be used). -/
theorem claim_C6_password_carry_forward (users : List RemoteUser) (cfg : List UserMap)
    (hcfg : (cfg.map UserMap.username).Nodup) :
    (∀ c ∈ cfg, c.password ≠ "" →
      ∀ v ∈ flattenMqUsers users cfg, v.username = c.username
        → v.password = some c.password) ∧
    (∀ v ∈ flattenMqUsers users cfg,
      (∀ c ∈ cfg, c.username ≠ v.username) → v.password = none) := by
  constructor
  · intro c hc hcp v hv hname
    obtain ⟨u, hu, hfu⟩ := List.mem_map.mp hv
    have huname : u.username = c.username := by
      rw [← hname, ← hfu]
    rw [← hfu]
    show (if (match lookupPair u.username (mkPairs cfg) with
        | some p => p
        | none => "") = "" then none
      else some (match lookupPair u.username (mkPairs cfg) with
        | some p => p
        | none => "")) = some c.password
    rw [mkPairs_eq cfg hcfg, huname, lookupPair_map_of_mem cfg hcfg c hc]
    dsimp only
    rw [if_neg hcp]
  · intro v hv hnone
    obtain ⟨u, hu, hfu⟩ := List.mem_map.mp hv
    have hvname : v.username = u.username := by rw [← hfu]
    rw [← hfu]
    show (if (match lookupPair u.username (mkPairs cfg) with
        | some p => p
        | none => "") = "" then none
      else some (match lookupPair u.username (mkPairs cfg) with
        | some p => p
        | none => "")) = none
    rw [mkPairs_eq cfg hcfg,
      lookupPair_map_eq_none u.username cfg (fun c hc => hvname ▸ hnone c hc)]
    dsimp only
    rw [if_pos rfl]

theorem claim_C6_witness :
    ((([⟨false, none, "secretpwd1234", "alice"⟩] : List UserMap).map
        UserMap.username).Nodup) ∧
    (FlatUser.mk "alice" (some "secretpwd1234") (some false) none).password
      = some "secretpwd1234" :=
  ⟨by decide,
    (claim_C6_password_carry_forward [⟨some false, [], "alice"⟩]
      [⟨false, none, "secretpwd1234", "alice"⟩] (by decide)).1
      ⟨false, none, "secretpwd1234", "alice"⟩ (by decide) (by decide)
      (FlatUser.mk "alice" (some "secretpwd1234") (some false) none) (by decide) (by decide)⟩

theorem subAux_empty_pat (l : List Char) : subAux [] l = true := by
  induction l with
  | nil => rfl
  | cons c rest ih =>
    simp [subAux, List.isPrefixOf]

theorem strContainsSub_empty_pat (s : String) : strContainsSub s "" = true := by
  rw [strContainsSub]
  exact subAux_empty_pat s.data

/-- C8: on a DescribeBroker error, the read clears local state and returns
nil exactly when the error is a NotFoundException (any message) or a
ForbiddenException whose message contains Forbidden; every other error is
returned to the caller unchanged. -/
theorem claim_C8_read_absent_normalization (e : AwsErr) :
    resourceAwsMqBrokerRead (Except.error e)
      = if e.code = ErrCodeNotFoundException
          ∨ (e.code = ErrCodeForbiddenException ∧ strContainsSub e.message "Forbidden" = true)
        then MqReadOutcome.removed
        else MqReadOutcome.failed e := by
  simp only [resourceAwsMqBrokerRead, isAWSErr]
  by_cases h1 : e.code = ErrCodeNotFoundException
  · simp [h1, strContainsSub_empty_pat]
  · by_cases h2 : e.code = ErrCodeForbiddenException
    · by_cases h3 : strContainsSub e.message "Forbidden" = true
      · simp [h1, h2, h3]
      · simp [h1, h2, h3, ErrCodeForbiddenException, ErrCodeNotFoundException]
    · simp [h1, h2]

/-- C10: the diff-suppression function of the user attribute returns true
exactly when the engine type equals RabbitMQ up to character case and the
arn attribute is non-empty (the broker already exists); otherwise user
changes are diffed normally. -/
theorem claim_C10_rabbitmq_user_diff_suppressed (engineType arn : String) :
    mqUserDiffSuppress engineType arn = true
      ↔ (strLower engineType = strLower "RabbitMQ" ∧ arn ≠ "") := by
  have hfold : strLower EngineTypeRabbitmq = strLower "RabbitMQ" := by decide
  rw [mqUserDiffSuppress, goEqualFold]
  by_cases heq : strLower engineType = strLower EngineTypeRabbitmq
  · by_cases harn : arn = ""
    · simp [heq, harn, ← hfold]
    · simp [heq, harn, ← hfold]
  · simp [heq, ← hfold]

/-- C9 counterexample: with apply_immediately set and a changed
configuration whose UpdateBroker call fails, the cycle aborts with the
error and never issues RebootBroker, although the claim's condition
(apply_immediately and a reboot-requiring change) holds. -/
theorem claim_C9_counterexample :
    (UpdatePlan.mk false true false false true).applyImmediately = true
    ∧ (UpdatePlan.mk false true false false true).hasChangeConfigurationLogs = true
    ∧ BrokerAction.rebootBroker ∉
        (resourceAwsMqBrokerUpdate (UpdatePlan.mk false true false false true) "b" [] []
          (MqUpdateClient.mk none (some ⟨"Bad", "boom"⟩) (fun _ => none) none none
            none)).1 := by
  refine ⟨rfl, rfl, ?_⟩
  decide

/-- C9 (amended): provided the security-group, configuration/logs and user
calls the cycle issues all succeed and the reboot call itself succeeds,
RebootBroker is issued exactly when apply_immediately is set and either the
configuration/logs attributes changed or the user step reported a mutation;
an issued reboot is followed by the poll for the Running state.  (When an
earlier remote call fails, the cycle aborts and no reboot is issued even if
the condition holds, which is what the counterexample shows.) -/
theorem claim_C9_reboot_iff (p : UpdatePlan) (bId : String) (old new : List UserMap)
    (c : MqUpdateClient)
    (hsg : p.hasChangeSecurityGroups = true → c.updateBrokerSecurityGroups = none)
    (hcfg : p.hasChangeConfigurationLogs = true → c.updateBrokerConfigurationLogs = none)
    (husr : p.hasChangeUser = true →
      (updateAwsMqBrokerUsers c.userCalls bId old new).2.1 = none)
    (hrb : c.rebootBroker = none) :
    (BrokerAction.rebootBroker ∈ (resourceAwsMqBrokerUpdate p bId old new c).1
      ↔ (p.applyImmediately = true
          ∧ (p.hasChangeConfigurationLogs = true
              ∨ mqCycleUsersMutated p bId old new c = true))) ∧
    (BrokerAction.rebootBroker ∈ (resourceAwsMqBrokerUpdate p bId old new c).1
      → BrokerAction.waitForRunning ∈ (resourceAwsMqBrokerUpdate p bId old new c).1) := by
  rw [resourceAwsMqBrokerUpdate_eq p bId old new c hsg,
    mqConfigStep_eq p bId old new c _ hcfg,
    mqUserStep_eq p bId old new c _ _ husr]
  set T := ((if p.hasChangeSecurityGroups then [BrokerAction.updateBrokerSecurityGroups]
        else [])
      ++ (if p.hasChangeConfigurationLogs then [BrokerAction.updateBrokerConfigurationLogs]
        else []))
      ++ (if p.hasChangeUser
        then (updateAwsMqBrokerUsers c.userCalls bId old new).2.2.map BrokerAction.userCall
        else []) with hT
  have hnor : BrokerAction.rebootBroker ∉ T := by
    rw [hT]
    intro hmem
    rcases List.mem_append.mp hmem with hmem1 | hmem1
    · rcases List.mem_append.mp hmem1 with hmem2 | hmem2
      · revert hmem2
        by_cases h : p.hasChangeSecurityGroups <;> simp [h]
      · revert hmem2
        by_cases h : p.hasChangeConfigurationLogs <;> simp [h]
    · revert hmem1
      by_cases h : p.hasChangeUser <;> simp [h]
  have hmain := mqRebootStep_mem p c
    (p.hasChangeConfigurationLogs || mqCycleUsersMutated p bId old new c) T hrb hnor
  constructor
  · constructor
    · intro h
      have h2 := hmain.1.mp h
      refine ⟨h2.1, ?_⟩
      simpa using h2.2
    · intro h
      apply hmain.1.mpr
      refine ⟨h.1, ?_⟩
      simpa using h.2
  · exact hmain.2

theorem claim_C9_witness :
    BrokerAction.rebootBroker ∈
      (resourceAwsMqBrokerUpdate (UpdatePlan.mk false true false false true) "b" [] []
        (MqUpdateClient.mk none none (fun _ => none) none none none)).1
    ∧ BrokerAction.waitForRunning ∈
      (resourceAwsMqBrokerUpdate (UpdatePlan.mk false true false false true) "b" [] []
        (MqUpdateClient.mk none none (fun _ => none) none none none)).1 := by
  have h := claim_C9_reboot_iff (UpdatePlan.mk false true false false true) "b" [] []
    (MqUpdateClient.mk none none (fun _ => none) none none none)
    (by simp) (fun _ => rfl) (by simp) rfl
  have hreb := h.1.mpr ⟨rfl, Or.inl rfl⟩
  exact ⟨hreb, h.2 hreb⟩
